import Mathlib

/-!
Verification development for the Jellyfin playlist generator
(src/jellyfin_playlist_generator.py).

Shallow embedding conventions:
* Python strings are `List Char`; string literals enter via `String.data`.
* Python floats are modelled by exact rationals `ℚ` (the claims under
  study are threshold/ordering properties, not rounding properties).
* `os.listdir` results are modelled by `Except PyErr (List …)`: a listing
  either succeeds with the directory entries (in the fixed order the OS
  would return them) or raises (`PyErr.permission` models
  `PermissionError`, `PyErr.eofError` models `EOFError` from `input()`).
* Library-function models (`unicodedata.normalize('NFKD', ·)`,
  `str.lower`, `int(·)`, `difflib.SequenceMatcher.ratio`) are noted at
  their definitions together with the repertoire they are faithful on.
-/

/-! ## Python character primitives -/

/-- Model of the whitespace class used by `str.strip` and by `\s` in
`re` (ASCII repertoire: space, tab, newline, carriage return, vertical
tab, form feed). -/
def pyIsSpace (c : Char) : Bool :=
  c = ' ' || c = '\t' || c = '\n' || c = '\r' ||
  c = Char.ofNat 11 || c = Char.ofNat 12

/-- Model of `str.lower`, faithful on the ASCII repertoire (the
accented letters that occur in the program are decomposed by NFKD
before `lower` is applied, so only ASCII case mapping is exercised). -/
def pyLower (c : Char) : Char :=
  if 'A' ≤ c ∧ c ≤ 'Z' then Char.ofNat (c.toNat + 32) else c

/-- NFKD decomposition table for the characters appearing in
`normalize_text`'s replacement dict (the lowercase accented Latin
letters, per the Unicode decomposition data: base letter followed by a
combining mark U+0300 grave / U+0301 acute / U+0302 circumflex /
U+0303 tilde / U+0308 diaeresis).  `ß` (U+00DF) has no NFKD
decomposition and is deliberately absent. -/
def nfkdTable : List (Char × List Char) :=
  [ ('ä', ['a', Char.ofNat 0x308]), ('ö', ['o', Char.ofNat 0x308]),
    ('ü', ['u', Char.ofNat 0x308]),
    ('é', ['e', Char.ofNat 0x301]), ('è', ['e', Char.ofNat 0x300]),
    ('ê', ['e', Char.ofNat 0x302]), ('ë', ['e', Char.ofNat 0x308]),
    ('á', ['a', Char.ofNat 0x301]), ('à', ['a', Char.ofNat 0x300]),
    ('â', ['a', Char.ofNat 0x302]), ('ã', ['a', Char.ofNat 0x303]),
    ('í', ['i', Char.ofNat 0x301]), ('ì', ['i', Char.ofNat 0x300]),
    ('î', ['i', Char.ofNat 0x302]), ('ï', ['i', Char.ofNat 0x308]),
    ('ó', ['o', Char.ofNat 0x301]), ('ò', ['o', Char.ofNat 0x300]),
    ('ô', ['o', Char.ofNat 0x302]), ('õ', ['o', Char.ofNat 0x303]),
    ('ú', ['u', Char.ofNat 0x301]), ('ù', ['u', Char.ofNat 0x300]),
    ('û', ['u', Char.ofNat 0x302]) ]

/-- Model of `unicodedata.normalize('NFKD', ·)` per character,
faithful on ASCII (identity) and on the accented letters of
`nfkdTable`; any character outside the modelled repertoire is left
unchanged. -/
def pyNFKD (c : Char) : List Char :=
  match nfkdTable.lookup c with
  | some l => l
  | none => [c]

/-- Model of `str.strip()`: drop leading and trailing whitespace. -/
def stripEnds (s : List Char) : List Char :=
  ((s.dropWhile pyIsSpace).reverse.dropWhile pyIsSpace).reverse

/-- Model of the final cleanup step of `normalize_text`
(the substitution of every maximal whitespace run by a single space,
as done by the anchored whitespace-run substitution on line 147). -/
def collapseWs : List Char → List Char
  | [] => []
  | [c] => if pyIsSpace c then [' '] else [c]
  | c :: d :: r =>
    if pyIsSpace c then
      if pyIsSpace d then collapseWs (d :: r)
      else ' ' :: collapseWs (d :: r)
    else c :: collapseWs (d :: r)

/-! ## The qualifier-removal patterns (lines 117-129)

Each pattern of `patterns_to_remove` has the shape
"optional whitespace, an opening delimiter, a delimiter-free span
containing the qualifier, the closing delimiter".  `re.sub` removes
every non-overlapping occurrence, scanning left to right; at each
occurrence the matched span runs from the maximal whitespace run
preceding the first viable opening delimiter to the first closing
delimiter after it. -/

/-- Substring test (the qualifier occurring anywhere inside the
delimiter-free span). -/
def hasSub (q : List Char) : List Char → Bool
  | [] => q.isEmpty
  | c :: rest => q.isPrefixOf (c :: rest) || hasSub q rest

/-- Four consecutive ASCII digits somewhere in the span
(the 4-digit-year qualifier). -/
def hasYear : List Char → Bool
  | c1 :: c2 :: c3 :: c4 :: rest =>
    (c1.isDigit && c2.isDigit && c3.isDigit && c4.isDigit) ||
      hasYear (c2 :: c3 :: c4 :: rest)
  | _ => false

/-- Attempt to complete a match that has just consumed the opening
delimiter: the span up to the first closing delimiter must contain the
qualifier.  Returns the remainder after the closing delimiter. -/
def trySpan (closeC : Char) (hasQ : List Char → Bool) (s : List Char) :
    Option (List Char) :=
  let inside := s.takeWhile (fun c => c ≠ closeC)
  match s.dropWhile (fun c => c ≠ closeC) with
  | [] => none
  | _ :: after => if hasQ inside then some after else none

/-- Attempt to start a match at the current position: optional
whitespace, the opening delimiter, then a completed span. -/
def startSpan (openC closeC : Char) (hasQ : List Char → Bool)
    (s : List Char) : Option (List Char) :=
  match s.dropWhile pyIsSpace with
  | [] => none
  | c :: t => if c = openC then trySpan closeC hasQ t else none

/-- The scanning loop of one `re.sub(pattern, '', text)` pass,
structurally recursive on a fuel argument.  Every step shortens the
string by at least one character — the emit branch by exactly one, a
removed span by at least two — so fuel `s.length` never runs out when
the loop starts at `s`. -/
def subQualGo (openC closeC : Char) (hasQ : List Char → Bool) :
    Nat → List Char → List Char
  | _, [] => []
  | 0, l => l
  | fuel + 1, c :: rest =>
    match startSpan openC closeC hasQ (c :: rest) with
    | some rem => subQualGo openC closeC hasQ fuel rem
    | none => c :: subQualGo openC closeC hasQ fuel rest

/-- One `re.sub(pattern, '', text)` pass for a qualifier pattern:
scan left to right, removing every occurrence. -/
def subQual (openC closeC : Char) (hasQ : List Char → Bool)
    (s : List Char) : List Char :=
  subQualGo openC closeC hasQ s.length s

/-- The eight patterns of `patterns_to_remove`, in source order:
parenthesized remaster / remix / edit / version / mix / 4-digit year,
then bracketed remaster and bracketed 4-digit year. -/
def patternList : List (Char × Char × (List Char → Bool)) :=
  [ ('(', ')', hasSub "remaster".data),
    ('(', ')', hasSub "remix".data),
    ('(', ')', hasSub "edit".data),
    ('(', ')', hasSub "version".data),
    ('(', ')', hasSub "mix".data),
    ('(', ')', hasYear),
    ('[', ']', hasSub "remaster".data),
    ('[', ']', hasYear) ]

/-- The pattern-removal loop of `normalize_text` (lines 128-129). -/
def applyPatterns (s : List Char) : List Char :=
  patternList.foldl (fun acc p => subQual p.1 p.2.1 p.2.2 acc) s

/-! ## The replacement table (lines 132-144)

The Python dict literal lists the key `ü` twice (`'ü': 'ue'` then
`'ü': 'u'`); the later binding wins while the key keeps its first
insertion position, so iteration applies `ü → u`. -/

/-- The replacement pairs in dict iteration order. -/
def replacementList : List (Char × List Char) :=
  [ ('&', "and".data), ('+', "and".data),
    ('ä', "ae".data), ('ö', "oe".data), ('ü', "u".data), ('ß', "ss".data),
    ('é', "e".data), ('è', "e".data), ('ê', "e".data), ('ë', "e".data),
    ('á', "a".data), ('à', "a".data), ('â', "a".data), ('ã', "a".data),
    ('í', "i".data), ('ì', "i".data), ('î', "i".data), ('ï', "i".data),
    ('ó', "o".data), ('ò', "o".data), ('ô', "o".data), ('õ', "o".data),
    ('ú', "u".data), ('ù', "u".data), ('û', "u".data) ]

/-- `str.replace(old, new)` for a single-character `old`. -/
def replaceChar (k : Char) (out : List Char) (s : List Char) : List Char :=
  s.flatMap (fun c => if c = k then out else [c])

/-- The replacement loop of `normalize_text` (lines 143-144). -/
def applyRepl (s : List Char) : List Char :=
  replacementList.foldl (fun acc kv => replaceChar kv.1 kv.2 acc) s

/-- Model of `normalize_text` (lines 105-149): empty input yields the
empty string; otherwise NFKD decomposition, lowercasing, stripping,
qualifier-pattern removal, the character replacements, and whitespace
collapsing followed by a final strip. -/
def normalizeText (s : List Char) : List Char :=
  if s.isEmpty then []
  else
    stripEnds (collapseWs (applyRepl (applyPatterns
      (stripEnds ((s.flatMap pyNFKD).map pyLower)))))

/-! ## Model of difflib.SequenceMatcher(None, a, b).ratio()

`ratio = 2*M/T` where `T = len(a) + len(b)` (1 when `T = 0`) and `M` is
the total size of the matching blocks.  The blocks are found by
repeatedly locating the longest matching block of a region and
recursing on the two flanking regions; the sort/merge post-processing
of `get_matching_blocks` does not change the size total and is not
modelled.  `isjunk` is `None`, so the junk set is empty and the two
junk-extension loops of `find_longest_match` never fire; the autojunk
heuristic (dropping popular characters from `b2j` when
`len(b) >= 200`) is modelled. -/

/-- Ascending positions of a character in `b` (the `b2j` chains). -/
def positionsOf (b : List Char) (c : Char) : List Nat :=
  (b.enum.filter (fun p => p.2 = c)).map (fun p => p.1)

/-- The autojunk "popular" characters: only when `len(b) >= 200`,
characters occurring more than `len(b)/100 + 1` times. -/
def popularChars (b : List Char) : List Char :=
  if b.length < 200 then []
  else b.dedup.filter (fun c => b.length / 100 + 1 < b.count c)

/-- `b2j` lookup: positions of `c` in `b`, with popular characters
purged. -/
def b2jGet (b : List Char) (c : Char) : List Nat :=
  if c ∈ popularChars b then [] else positionsOf b c

/-- Inner loop of `find_longest_match`: walk the ascending position
chain of `a[i]` in `b` (skipping positions below `blo`, stopping at
`bhi`), building the new `j2len` table and updating the best block. -/
def flmInner (i blo bhi : Nat) (j2lenOld : List (Nat × Nat)) :
    List Nat → List (Nat × Nat) → Nat × Nat × Nat →
    List (Nat × Nat) × (Nat × Nat × Nat)
  | [], acc, best => (acc, best)
  | j :: js, acc, best =>
    if j < blo then flmInner i blo bhi j2lenOld js acc best
    else if bhi ≤ j then (acc, best)
    else
      let prev := if j = 0 then 0 else (j2lenOld.lookup (j - 1)).getD 0
      let k := prev + 1
      let best2 := if best.2.2 < k then (i + 1 - k, j + 1 - k, k) else best
      flmInner i blo bhi j2lenOld js ((j, k) :: acc) best2

/-- Outer loop of `find_longest_match` over `i` in `[alo, ahi)`. -/
def flmLoop (a : List Char) (bj : Char → List Nat) (blo bhi : Nat) :
    List Nat → List (Nat × Nat) → Nat × Nat × Nat → Nat × Nat × Nat
  | [], _, best => best
  | i :: rest, j2len, best =>
    match a.get? i with
    | none => flmLoop a bj blo bhi rest j2len best
    | some ai =>
      let r := flmInner i blo bhi j2len (bj ai) [] best
      flmLoop a bj blo bhi rest r.1 r.2

/-- Equality of two optional characters, false when either is absent. -/
def eqAt (x y : Option Char) : Bool :=
  match x, y with
  | some c, some d => c = d
  | _, _ => false

/-- First extension loop: grow the best block leftwards over equal
characters (the junk test is vacuous with an empty junk set). -/
def extendLeft (a b : List Char) (alo blo : Nat) :
    Nat → Nat × Nat × Nat → Nat × Nat × Nat
  | 0, best => best
  | fuel + 1, (bi, bj, bs) =>
    if alo < bi && blo < bj && eqAt (a.get? (bi - 1)) (b.get? (bj - 1)) then
      extendLeft a b alo blo fuel (bi - 1, bj - 1, bs + 1)
    else (bi, bj, bs)

/-- Second extension loop: grow the best block rightwards over equal
characters. -/
def extendRight (a b : List Char) (ahi bhi : Nat) :
    Nat → Nat × Nat × Nat → Nat × Nat × Nat
  | 0, best => best
  | fuel + 1, (bi, bj, bs) =>
    if bi + bs < ahi && bj + bs < bhi &&
        eqAt (a.get? (bi + bs)) (b.get? (bj + bs)) then
      extendRight a b ahi bhi fuel (bi, bj, bs + 1)
    else (bi, bj, bs)

/-- `find_longest_match(alo, ahi, blo, bhi)`: the dynamic-programming
sweep followed by the two (non-junk) extension loops.  The two
junk-extension loops are identity because the junk set is empty
(`isjunk` is `None`). -/
def findLongestMatch (a b : List Char) (alo ahi blo bhi : Nat) :
    Nat × Nat × Nat :=
  let best0 := flmLoop a (b2jGet b) blo bhi
    (List.range' alo (ahi - alo)) [] (alo, blo, 0)
  let best1 := extendLeft a b alo blo best0.1 best0
  extendRight a b ahi bhi ahi best1

/-- Total size of all matching blocks of the region, by recursive
splitting (difflib uses an explicit queue; the sum of sizes is
independent of traversal order).  The fuel bounds the recursion depth;
each split strictly shrinks the `a`-region, so `ahi - alo + 1` fuel at
the top level is always sufficient. -/
def matchSizeAux (a b : List Char) :
    Nat → Nat → Nat → Nat → Nat → Nat
  | 0, _, _, _, _ => 0
  | fuel + 1, alo, ahi, blo, bhi =>
    let r := findLongestMatch a b alo ahi blo bhi
    let i := r.1
    let j := r.2.1
    let k := r.2.2
    if k = 0 then 0
    else
      (if alo < i && blo < j then matchSizeAux a b fuel alo i blo j else 0)
      + k +
      (if i + k < ahi && j + k < bhi then
        matchSizeAux a b fuel (i + k) ahi (j + k) bhi else 0)

/-- `M`: the total number of matching elements between `a` and `b`. -/
def matchTotal (a b : List Char) : Nat :=
  matchSizeAux a b (a.length + 1) 0 a.length 0 b.length

/-- Rational multiplication through the normalizing constructor, so
that concrete scores evaluate inside proofs (the library's `Rat.mul`
is irreducible); the value equals ordinary multiplication. -/
def ratMul (a b : ℚ) : ℚ := mkRat (a.num * b.num) (a.den * b.den)

/-- Rational addition through the normalizing constructor. -/
def ratAdd (a b : ℚ) : ℚ :=
  mkRat (a.num * (b.den : Int) + b.num * (a.den : Int)) (a.den * b.den)

/-- Rational division through the normalizing constructor (every
divisor in the model is positive). -/
def ratDiv (a b : ℚ) : ℚ :=
  if 0 ≤ b.num then mkRat (a.num * (b.den : Int)) (a.den * b.num.toNat)
  else mkRat (-(a.num * (b.den : Int))) (a.den * (-b.num).toNat)

/-- Model of `SequenceMatcher(None, a, b).ratio()` as an exact
rational: `2*M/T`, and 1 when both strings are empty. -/
def seqMatchScore (a b : List Char) : ℚ :=
  if a.length + b.length = 0 then mkRat 1 1
  else mkRat (2 * (matchTotal a b : Int)) (a.length + b.length)

/-- Model of `similarity` (lines 151-153): the sequence-matcher ratio
of the normalized strings. -/
def similarity (a b : List Char) : ℚ :=
  seqMatchScore (normalizeText a) (normalizeText b)

/-! ## Library filesystem model and the candidate retriever

The retriever walks `<library_root>/<artist_dir>/<album_dir>/<file>`.
Each `os.listdir` call is modelled by an `Except PyErr` value: entries
in a fixed order, or a raised error. -/

/-- Raised Python exceptions relevant to the claims. -/
inductive PyErr where
  | permission
  | eofError
deriving Repr, DecidableEq

deriving instance DecidableEq for Except

/-- An entry of an artist directory: its name, whether it is a
directory, and (when a directory) the outcome of listing its files. -/
structure Album where
  name : List Char
  isDir : Bool
  files : Except PyErr (List (List Char))

/-- An entry of the library root: its name, whether it is a
directory, and the outcome of listing it. -/
structure Artist where
  name : List Char
  isDir : Bool
  albums : Except PyErr (List Album)

/-- The music library: root path, existence, and the outcome of
listing the root. -/
structure Library where
  root : List Char
  pathExists : Bool
  artists : Except PyErr (List Artist)

/-- The three configurable floors of `find_best_matches`. -/
structure Thresholds where
  minCombined : ℚ
  minArtist : ℚ
  minTitle : ℚ
deriving Repr, DecidableEq

/-- `os.path.join` for the simple relative names in play. -/
def joinPath (a b : List Char) : List Char := a ++ '/' :: b

/-- The audio-extension filter (line 193):
`file.lower().endswith(('.mp3', '.flac', '.m4a', '.ogg', '.wav'))`. -/
def isAudioFile (file : List Char) : Bool :=
  let low := file.map pyLower
  [".mp3", ".flac", ".m4a", ".ogg", ".wav"].any
    (fun ext => ext.data.isSuffixOf low)

/-- `file.lower().endswith('.flac')` (lines 226 and 238). -/
def isFlacFile (file : List Char) : Bool :=
  ".flac".data.isSuffixOf (file.map pyLower)

/-- Model of `is_live_version` (lines 155-160): one of the live
indicators occurs in the lowercased filename. -/
def isLiveVersion (file : List Char) : Bool :=
  let low := file.map pyLower
  ["live", "concert", "tour", "festival", "unplugged", "acoustic"].any
    (fun ind => hasSub ind.data low)

/-- Model of `os.path.splitext(file)[0]`: cut at the last dot, except
that a name whose characters before the last dot are all dots (for
example `.flac`) is not split. -/
def splitExtStem (s : List Char) : List Char :=
  match ((s.enum.filter (fun p => p.2 = '.')).map (fun p => p.1)).getLast? with
  | none => s
  | some i => if (s.take i).all (fun c => c = '.') then s else s.take i

/-- Model of the track-number removal (line 200), the anchored
substitution of leading digits, optional whitespace, a dash or dot,
and optional whitespace. -/
def stripTrackNo (s : List Char) : List Char :=
  let ds := s.takeWhile Char.isDigit
  if ds.isEmpty then s
  else
    match (s.dropWhile Char.isDigit).dropWhile pyIsSpace with
    | c :: rest =>
      if c = '-' ∨ c = '.' then rest.dropWhile pyIsSpace else s
    | [] => s

/-- Split at the first occurrence of the separator
(`filename_clean.split(' - ', 1)`, lines 203-204), if any. -/
def findSep : List Char → Option (List Char × List Char)
  | ' ' :: '-' :: ' ' :: rest => some ([], rest)
  | c :: rest =>
    match findSep rest with
    | some (x, y) => some (c :: x, y)
    | none => none
  | [] => none

/-- A scored match, mirroring the dict built on lines 229-239. -/
structure Candidate where
  path : List Char
  artist : List Char
  title : List Char
  similarity : ℚ
  artist_sim : ℚ
  title_sim : ℚ
  is_live : Bool
  filename : List Char
  is_flac : Bool
deriving Repr, DecidableEq

instance : Inhabited Candidate :=
  ⟨⟨[], [], [], 0, 0, 0, false, [], false⟩⟩

/-- The weighted blend of line 219:
`(artist_sim*0.6 + file_artist_sim*0.2 + title_sim*0.6) / 1.4`. -/
def combinedSim (artistSim fileArtistSim titleSim : ℚ) : ℚ :=
  ratDiv
    (ratAdd (ratAdd (ratMul artistSim (mkRat 3 5))
      (ratMul fileArtistSim (mkRat 1 5))) (ratMul titleSim (mkRat 3 5)))
    (mkRat 7 5)

/-- The `(file_artist, file_title)` guess for a file (lines 196-212):
stem, track-number cleanup, then the separator split, falling back to
the artist folder name and the whole cleaned stem. -/
def parsedOf (artistDir file : List Char) : List Char × List Char :=
  match findSep (stripTrackNo (splitExtStem file)) with
  | some p => p
  | none => (artistDir, stripTrackNo (splitExtStem file))

/-- The file-artist similarity of line 215. -/
def fileArtistSimOf (artistDir searchArtist file : List Char) : ℚ :=
  similarity searchArtist (normalizeText (parsedOf artistDir file).1)

/-- The title similarity of line 216. -/
def titleSimOf (artistDir searchTitle file : List Char) : ℚ :=
  similarity searchTitle (normalizeText (parsedOf artistDir file).2)

/-- Per-file scoring and filtering (lines 192-239): extension filter,
stem and track-number cleanup, the separator parsing into artist and
title guesses, similarity scores, the threshold filter on the
pre-bonus combined score, and the candidate record with the FLAC bonus
folded into `similarity`. -/
def processFile (artistDir albumPath searchArtist searchTitle : List Char)
    (artistSim : ℚ) (t : Thresholds) (file : List Char) : Option Candidate :=
  if isAudioFile file then
    let titleSim := titleSimOf artistDir searchTitle file
    let combined := combinedSim artistSim
      (fileArtistSimOf artistDir searchArtist file) titleSim
    if t.minCombined ≤ combined ∧ t.minArtist ≤ artistSim ∧
        t.minTitle ≤ titleSim then
      let flacBonus : ℚ := if isFlacFile file then mkRat 1 20 else 0
      some
        { path := joinPath albumPath file
          artist := (parsedOf artistDir file).1
          title := (parsedOf artistDir file).2
          similarity := ratAdd combined flacBonus
          artist_sim := artistSim
          title_sim := titleSim
          is_live := isLiveVersion file
          filename := file
          is_flac := isFlacFile file }
    else none
  else none

/-- Accumulate per-entry candidate lists, propagating the first raised
error (the `for` loops of `find_best_matches` have no exception
handler, so a listing error aborts the whole call). -/
def collectE (f : α → Except PyErr (List β)) : List α → Except PyErr (List β)
  | [] => .ok []
  | a :: rest =>
    match f a with
    | .error e => .error e
    | .ok l =>
      match collectE f rest with
      | .error e => .error e
      | .ok ls => .ok (l ++ ls)

/-- One album directory (lines 186-239): non-directories are skipped;
listing the album yields the files to score. -/
def processAlbum (artistDir artistPath searchArtist searchTitle : List Char)
    (artistSim : ℚ) (t : Thresholds) (album : Album) :
    Except PyErr (List Candidate) :=
  if album.isDir then
    match album.files with
    | .error e => .error e
    | .ok files =>
      .ok (files.filterMap
        (processFile artistDir (joinPath artistPath album.name)
          searchArtist searchTitle artistSim t))
  else .ok []

/-- One artist directory (lines 175-239): non-directories are skipped;
the artist-folder similarity prunes the folder before its albums are
listed. -/
def processArtist (root searchArtist searchTitle : List Char)
    (t : Thresholds) (artist : Artist) : Except PyErr (List Candidate) :=
  if artist.isDir then
    let artistSim := similarity searchArtist (normalizeText artist.name)
    if artistSim < t.minArtist then .ok []
    else
      match artist.albums with
      | .error e => .error e
      | .ok albums =>
        collectE
          (processAlbum artist.name (joinPath root artist.name)
            searchArtist searchTitle artistSim t) albums
  else .ok []

/-- The discovery phase of `find_best_matches` (lines 162-239), before
the final sort: the accepted candidates in discovery order. -/
def findBestMatchesRaw (artist title : List Char) (lib : Library)
    (t : Thresholds) : Except PyErr (List Candidate) :=
  if lib.pathExists then
    let searchArtist := normalizeText artist
    let searchTitle := normalizeText title
    match lib.artists with
    | .error e => .error e
    | .ok artists =>
      collectE (processArtist lib.root searchArtist searchTitle t) artists
  else .ok []

/-- The sort-key comparison of line 242, tuple
`(is_live, not is_flac, -similarity)` under lexicographic order with
false before true. -/
def keyLe (c d : Candidate) : Bool :=
  (!c.is_live && d.is_live) ||
  (c.is_live == d.is_live &&
    ((c.is_flac && !d.is_flac) ||
      (c.is_flac == d.is_flac && decide (d.similarity ≤ c.similarity))))

/-- Stable insertion into a sorted list: the new element goes before
the first element it compares less-or-equal to. -/
def insertLe (le : α → α → Bool) (x : α) : List α → List α
  | [] => [x]
  | y :: ys => if le x y then x :: y :: ys else y :: insertLe le x ys

/-- Insertion sort.  It is stable, and Python's `list.sort` is
specified to be a stable sort, so both compute the same list. -/
def insSort (le : α → α → Bool) : List α → List α
  | [] => []
  | x :: xs => insertLe le x (insSort le xs)

/-- Model of `find_best_matches` (lines 162-244): discovery followed
by the stable sort on `(is_live, not is_flac, -similarity)`. -/
def findBestMatches (artist title : List Char) (lib : Library)
    (t : Thresholds) : Except PyErr (List Candidate) :=
  match findBestMatchesRaw artist title lib t with
  | .error e => .error e
  | .ok l => .ok (insSort keyLe l)

/-- Stage 1 thresholds (line 289): 0.75 / 0.7 / 0.7. -/
def stage1T : Thresholds := ⟨mkRat 3 4, mkRat 7 10, mkRat 7 10⟩

/-- Stage 2 thresholds (line 295): 0.65 / 0.6 / 0.6. -/
def stage2T : Thresholds := ⟨mkRat 13 20, mkRat 3 5, mkRat 3 5⟩

/-- Stage 3 thresholds (line 301): 0.5 / 0.4 / 0.5. -/
def stage3T : Thresholds := ⟨mkRat 1 2, mkRat 2 5, mkRat 1 2⟩

/-- Interactive-search thresholds (line 252): 0.3 / 0.2 / 0.3. -/
def looseT : Thresholds := ⟨mkRat 3 10, mkRat 1 5, mkRat 3 10⟩

/-- Model of `search_with_fallback` (lines 284-306): the three stages
in order, returning the top candidate of the first non-empty stage. -/
def searchWithFallback (artist title : List Char) (lib : Library) :
    Except PyErr (Option Candidate) :=
  match findBestMatches artist title lib stage1T with
  | .error e => .error e
  | .ok (c :: _) => .ok (some c)
  | .ok [] =>
    match findBestMatches artist title lib stage2T with
    | .error e => .error e
    | .ok (c :: _) => .ok (some c)
    | .ok [] =>
      match findBestMatches artist title lib stage3T with
      | .error e => .error e
      | .ok (c :: _) => .ok (some c)
      | .ok [] => .ok none

/-- Model of `int(choice)` for the already-stripped selection reply:
one or more ASCII digits (the underscore grouping and non-ASCII digits
accepted by Python are outside the modelled repertoire). -/
def digitsToNat (ds : List Char) : Option Nat :=
  if ds.isEmpty then none
  else if ds.all Char.isDigit then
    some (ds.foldl (fun acc c => acc * 10 + (c.toNat - 48)) 0)
  else none

/-- Signed integer parsing, `ValueError` modelled as `none`. -/
def pyInt : List Char → Option Int
  | '-' :: rest => (digitsToNat rest).map (fun n => -(n : Int))
  | '+' :: rest => (digitsToNat rest).map (fun n => (n : Int))
  | s => (digitsToNat s).map (fun n => (n : Int))

/-- The reply normalization of line 268: strip then lowercase. -/
def replyKey (inp : List Char) : List Char := (stripEnds inp).map pyLower

/-- The selection loop of `interactive_search` (lines 266-282), driven
by the queue of replies the user will type.  Each iteration consumes
one reply, stripped and lowercased as on line 268; the skip letter
skips, a number in `[1, min(len(matches), 10)]` selects
`matches[n-1]`, anything else re-prompts; an exhausted reply queue
models `input()` raising `EOFError`. -/
def selLoop (ms : List Candidate) :
    List (List Char) → Except PyErr (Option Candidate × List (List Char))
  | [] => .error .eofError
  | inp :: rest =>
    if replyKey inp = ['s'] then .ok (none, rest)
    else
      match pyInt (replyKey inp) with
      | none => selLoop ms rest
      | some n =>
        if 1 ≤ n ∧ n ≤ min ms.length 10 then
          .ok (some (ms.getD (n - 1).toNat default), rest)
        else selLoop ms rest

/-- Model of `interactive_search` (lines 246-282): the loose retrieval
followed by the selection loop; an empty candidate list returns `none`
with no reply consumed. -/
def interactiveSearch (artist title : List Char) (lib : Library)
    (inputs : List (List Char)) :
    Except PyErr (Option Candidate × List (List Char)) :=
  match findBestMatches artist title lib looseT with
  | .error e => .error e
  | .ok [] => .ok (none, inputs)
  | .ok (m :: ms) => selLoop (m :: ms) inputs

/-- First round of `main` (lines 468-484): resolve each track
automatically, collecting found paths and unresolved queries, both in
input order. -/
def firstRound (auto : α → Option (List Char)) :
    List α → List (List Char) × List α
  | [] => ([], [])
  | q :: qs =>
    let r := firstRound auto qs
    match auto q with
    | some p => (p :: r.1, r.2)
    | none => (r.1, q :: r.2)

/-- The collection loop of `main` (lines 468-510): the automatic round
over all tracks, then the interactive round over the leftovers, every
found path appended to the same running list.  In `main` the automatic
resolver is `search_with_fallback` and the interactive one is
`interactive_search`, abstracted here as the per-query functions
`auto` and `inter`. -/
def mainResolve (auto inter : α → Option (List Char)) (tracks : List α) :
    List (List Char) :=
  let r := firstRound auto tracks
  r.1 ++ r.2.filterMap inter

/-- The ordering property claimed of the output list: the resolved
paths appear in input playlist order, each query contributing its
automatic result if any, otherwise its interactive result. -/
def inInputOrder (auto inter : α → Option (List Char))
    (tracks : List α) : Prop :=
  mainResolve auto inter tracks =
    tracks.filterMap (fun q =>
      match auto q with
      | some p => some p
      | none => inter q)

/-- The sort key of line 242 as data: `(is_live, is_flac,
final_score)`; two candidates are tied exactly when their keys are
equal. -/
def keyOf (c : Candidate) : Bool × Bool × ℚ := (c.is_live, c.is_flac, c.similarity)

/-- `c` may legitimately precede `d` in the sorted output: non-live
before live; at equal liveness, FLAC before non-FLAC; at equal
liveness and format, the higher final score first. -/
def beforeOk (c d : Candidate) : Prop :=
  (c.is_live = false ∧ d.is_live = true) ∨
  (c.is_live = d.is_live ∧ c.is_flac = true ∧ d.is_flac = false) ∨
  (c.is_live = d.is_live ∧ c.is_flac = d.is_flac ∧ d.similarity ≤ c.similarity)

/-! ## Concrete instances for counterexamples and witnesses -/

/-- A library whose sole artist folder matches exactly but raises a
permission error when its albums are listed. -/
def libPermA : Library :=
  ⟨"m".data, true,
    .ok [⟨"ab".data, true, .error .permission⟩]⟩

/-- A library whose root listing itself raises. -/
def libRootErr : Library :=
  ⟨"m".data, true, .error .permission⟩

/-- A small healthy library: one artist `ab`, one album `al`, three
audio files, two of which tie on every component of the sort key. -/
def libSmall : Library :=
  ⟨"m".data, true,
    .ok [⟨"ab".data, true,
      .ok [⟨"al".data, true,
        .ok ["cd.mp3".data, "cd.flac".data, "01 - cd.mp3".data]⟩]⟩]⟩

/-- The FLAC candidate of `libSmall` for the query (ab, cd). -/
def candFlac : Candidate :=
  ⟨"m/ab/al/cd.flac".data, "ab".data, "cd".data, mkRat 21 20, mkRat 1 1,
    mkRat 1 1, false, "cd.flac".data, true⟩

/-- The plain mp3 candidate of `libSmall` for the query (ab, cd). -/
def candMp3 : Candidate :=
  ⟨"m/ab/al/cd.mp3".data, "ab".data, "cd".data, mkRat 1 1, mkRat 1 1,
    mkRat 1 1, false, "cd.mp3".data, false⟩

/-- The track-numbered mp3 candidate of `libSmall`, tying with
`candMp3` on the whole sort key. -/
def candTrack : Candidate :=
  ⟨"m/ab/al/01 - cd.mp3".data, "ab".data, "cd".data, mkRat 1 1, mkRat 1 1,
    mkRat 1 1, false, "01 - cd.mp3".data, false⟩

/-- A library whose first artist folder is unreadable and similar to
the query at 1/3 — below the Stage 3 artist floor (2/5) but above the
interactive floor (1/5) — while the second folder matches exactly. -/
def libMono : Library :=
  ⟨"m".data, true,
    .ok [⟨"avv".data, true, .error .permission⟩,
         ⟨"azz".data, true,
           .ok [⟨"bl".data, true, .ok ["bzz.mp3".data]⟩]⟩]⟩

/-- The candidate of `libMono` for the query (azz, bzz). -/
def candMono : Candidate :=
  ⟨"m/azz/bl/bzz.mp3".data, "azz".data, "bzz".data, mkRat 1 1, mkRat 1 1,
    mkRat 1 1, false, "bzz.mp3".data, false⟩

/-- Library for the output-order counterexample: the first artist
folder only matches the first query loosely (1/3, below every
automatic-stage artist floor, above the interactive floor), the
second folder matches the second query exactly. -/
def libOrder : Library :=
  ⟨"m".data, true,
    .ok [⟨"avv".data, true,
           .ok [⟨"bl".data, true, .ok ["bvv.mp3".data]⟩]⟩,
         ⟨"ab".data, true,
           .ok [⟨"al".data, true, .ok ["cd.mp3".data]⟩]⟩]⟩

/-- The two queries of the output-order counterexample, in playlist
order: the first resolves only interactively, the second
automatically. -/
def tracksOrder : List (List Char × List Char) :=
  [("azz".data, "bzz".data), ("ab".data, "cd".data)]

/-- The automatic resolver of `main` instantiated on `libOrder`
(no listing in `libOrder` raises, so the error branch is inert). -/
def autoOrder (q : List Char × List Char) : Option (List Char) :=
  match searchWithFallback q.1 q.2 libOrder with
  | .ok r => r.map (fun c => c.path)
  | .error _ => none

/-- The interactive resolver of `main` instantiated on `libOrder`,
with the user answering `1` to the prompt. -/
def interOrder (q : List Char × List Char) : Option (List Char) :=
  match interactiveSearch q.1 q.2 libOrder [['1']] with
  | .ok (r, _) => r.map (fun c => c.path)
  | .error _ => none

/-- Characters that every later normalization pass leaves alone:
fixed by NFKD and by lowercasing, not a replacement key, and not a
pattern delimiter.  Every character of a `normalize_text` output over
a delimiter-free input lies in this class. -/
def goodChar (c : Char) : Prop :=
  pyNFKD c = [c] ∧ pyLower c = c ∧
  (∀ kv ∈ replacementList, c ≠ kv.1) ∧ c ≠ '(' ∧ c ≠ '['

/-- Whitespace-normal form: every whitespace character is a plain
space and no two whitespace characters are adjacent.  This is the
invariant established by the whitespace-collapsing pass. -/
def wsOkP (l : List Char) : Prop :=
  (∀ c ∈ l, pyIsSpace c = true → c = ' ') ∧
  List.Chain' (fun a b => ¬(pyIsSpace a = true ∧ pyIsSpace b = true)) l

/-! ## Theorems -/

theorem firstRound_fst {α : Type} (auto : α → Option (List Char))
    (l : List α) : (firstRound auto l).1 = l.filterMap auto := by
  induction l with
  | nil => rfl
  | cons q qs ih =>
    unfold firstRound
    cases h : auto q <;> simp [h, ih]

theorem firstRound_snd {α : Type} (auto : α → Option (List Char))
    (l : List α) :
    (firstRound auto l).2 = l.filter (fun q => (auto q).isNone) := by
  induction l with
  | nil => rfl
  | cons q qs ih =>
    unfold firstRound
    cases h : auto q <;> simp [h, ih]

theorem filterMap_filter_guard {α : Type}
    (auto inter : α → Option (List Char)) (l : List α) :
    (l.filter (fun q => (auto q).isNone)).filterMap inter =
      l.filterMap (fun q =>
        match auto q with
        | some _ => none
        | none => inter q) := by
  induction l with
  | nil => rfl
  | cons q qs ih =>
    cases h : auto q <;> simp [h, ih, List.filter_cons, List.filterMap_cons]

/-- C1 (amended).  The output list handed to the serializer is
stage-major, not playlist-major: first every automatically resolved
path in input order, then every interactively resolved path in input
order.  Within each stage the input order is preserved and unresolved
queries are absent, but an interactively resolved early query's path
follows every automatically resolved path. -/
theorem c1_stage_major_order {α : Type}
    (auto inter : α → Option (List Char)) (tracks : List α) :
    mainResolve auto inter tracks =
      tracks.filterMap auto ++
        tracks.filterMap (fun q =>
          match auto q with
          | some _ => none
          | none => inter q) := by
  show (firstRound auto tracks).1 ++
      (firstRound auto tracks).2.filterMap inter = _
  rw [firstRound_fst, firstRound_snd, filterMap_filter_guard]

/-- C1 (counterexample).  On `libOrder`, query 1 resolves only in the
interactive round while query 2 resolves automatically; the path of
the earlier query 1 comes after the path of the later query 2, so the
output is not in input playlist order. -/
theorem c1_counterexample :
    mainResolve autoOrder interOrder tracksOrder =
      ["m/ab/al/cd.mp3".data, "m/avv/bl/bvv.mp3".data] ∧
    autoOrder ("azz".data, "bzz".data) = none ∧
    interOrder ("azz".data, "bzz".data) = some "m/avv/bl/bvv.mp3".data ∧
    autoOrder ("ab".data, "cd".data) = some "m/ab/al/cd.mp3".data ∧
    ¬ inInputOrder autoOrder interOrder tracksOrder := by
  refine ⟨by decide, by decide, by decide, by decide, ?_⟩
  unfold inInputOrder
  decide

/-- C2 (amended).  `find_best_matches` has no handler for listing
errors: a permission error raised while listing the library root
propagates to the caller instead of being skipped. -/
theorem c2_error_propagates (artist title : List Char) (t : Thresholds)
    (e : PyErr) (lib : Library) (h1 : lib.pathExists = true)
    (h2 : lib.artists = .error e) :
    findBestMatches artist title lib t = .error e := by
  unfold findBestMatches findBestMatchesRaw
  rw [h1, h2]
  rfl

theorem c2_error_propagates_witness :
    findBestMatches "ab".data "cd".data libRootErr stage1T =
      .error .permission :=
  c2_error_propagates "ab".data "cd".data stage1T .permission libRootErr
    rfl rfl

/-- C2 (counterexample).  In `libPermA` the artist folder matches the
query exactly, so the scan proceeds into it; the permission error
raised when listing its albums aborts the whole retrieval instead of
being skipped. -/
theorem c2_counterexample :
    findBestMatches "ab".data "cd".data libPermA stage1T =
      .error .permission := by decide

/-- C3 (counterexample).  A trailing bracketed `remix` qualifier is
not removed by `normalize_text`, although the claim says the bracketed
form is removed like the parenthesized one. -/
theorem c3_counterexample :
    normalizeText "a [remix]".data = "a [remix]".data ∧
    normalizeText "a [remix]".data ≠ "a".data := by decide

/-- C3 (amended).  The parenthesized form is removed for all six
qualifiers, but the bracketed form only for `remaster` and 4-digit
years; bracketed `remix`, `edit`, `version` and `mix` survive. -/
theorem c3_qualifier_forms :
    normalizeText "a (remaster)".data = "a".data ∧
    normalizeText "a (remix)".data = "a".data ∧
    normalizeText "a (edit)".data = "a".data ∧
    normalizeText "a (version)".data = "a".data ∧
    normalizeText "a (mix)".data = "a".data ∧
    normalizeText "a (1999)".data = "a".data ∧
    normalizeText "a [remaster]".data = "a".data ∧
    normalizeText "a [1999]".data = "a".data ∧
    normalizeText "a [remix]".data = "a [remix]".data ∧
    normalizeText "a [edit]".data = "a [edit]".data ∧
    normalizeText "a [version]".data = "a [version]".data ∧
    normalizeText "a [mix]".data = "a [mix]".data := by decide

/-- C4.  The replacement table itself maps `ä` to `ae` (and `&`, `+`,
`ß` substitutions do fire), but because NFKD decomposition runs first,
the precomposed key `ä` never occurs in the text being replaced:
`normalize_text` of `ä` is the base letter followed by the combining
diaeresis U+0308, not `ae`. -/
theorem c4_diacritic_failing_input :
    normalizeText "ä".data = ['a', Char.ofNat 0x308] ∧
    normalizeText "ä".data ≠ "ae".data ∧
    ('ä', "ae".data) ∈ replacementList ∧
    normalizeText "a&b".data = "aandb".data ∧
    normalizeText "a+b".data = "aandb".data ∧
    normalizeText "straße".data = "strasse".data := by decide

/-- C5 (counterexample).  `normalize_text` is not idempotent: on
`(m[)remaster]ix)` the bracketed-remaster pass (which runs after every
parenthesized pass) removes `[)remaster]` and leaves `(mix)`, which a
second application removes entirely. -/
theorem c5_counterexample :
    normalizeText "(m[)remaster]ix)".data = "(mix)".data ∧
    normalizeText (normalizeText "(m[)remaster]ix)".data) ≠
      normalizeText "(m[)remaster]ix)".data := by decide

/-- C10 (counterexample).  Loosening thresholds can lose candidates:
in `libMono` the unreadable artist folder is pruned at the Stage 3
artist floor, so the stricter call returns a candidate, while the
looser interactive-threshold call enters the unreadable folder and
raises instead of returning any candidate list. -/
theorem c10_counterexample :
    (looseT.minCombined ≤ stage3T.minCombined ∧
     looseT.minArtist ≤ stage3T.minArtist ∧
     looseT.minTitle ≤ stage3T.minTitle) ∧
    findBestMatches "azz".data "bzz".data libMono stage3T =
      .ok [candMono] ∧
    findBestMatches "azz".data "bzz".data libMono looseT =
      .error .permission := by decide

/-- C7.  `search_with_fallback` runs retrieval at exactly the three
threshold tuples (0.75, 0.7, 0.7), (0.65, 0.6, 0.6), (0.5, 0.4, 0.5),
in that order; it returns the top-ranked candidate of the first stage
whose list is non-empty, returns `none` only when all three stages are
empty, and never uses a later stage when Stage 1 is non-empty. -/
theorem c7_staged_resolution (artist title : List Char) (lib : Library) :
    stage1T = ⟨mkRat 3 4, mkRat 7 10, mkRat 7 10⟩ ∧
    stage2T = ⟨mkRat 13 20, mkRat 3 5, mkRat 3 5⟩ ∧
    stage3T = ⟨mkRat 1 2, mkRat 2 5, mkRat 1 2⟩ ∧
    (∀ c r, findBestMatches artist title lib stage1T = .ok (c :: r) →
      searchWithFallback artist title lib = .ok (some c)) ∧
    (∀ c r, findBestMatches artist title lib stage1T = .ok [] →
      findBestMatches artist title lib stage2T = .ok (c :: r) →
      searchWithFallback artist title lib = .ok (some c)) ∧
    (∀ c r, findBestMatches artist title lib stage1T = .ok [] →
      findBestMatches artist title lib stage2T = .ok [] →
      findBestMatches artist title lib stage3T = .ok (c :: r) →
      searchWithFallback artist title lib = .ok (some c)) ∧
    (findBestMatches artist title lib stage1T = .ok [] →
      findBestMatches artist title lib stage2T = .ok [] →
      findBestMatches artist title lib stage3T = .ok [] →
      searchWithFallback artist title lib = .ok none) := by
  refine ⟨rfl, rfl, rfl, ?_, ?_, ?_, ?_⟩
  · intro c r h1
    unfold searchWithFallback
    rw [h1]
  · intro c r h1 h2
    unfold searchWithFallback
    rw [h1, h2]
  · intro c r h1 h2 h3
    unfold searchWithFallback
    rw [h1, h2, h3]
  · intro h1 h2 h3
    unfold searchWithFallback
    rw [h1, h2, h3]

theorem c7_staged_resolution_witness :
    searchWithFallback "ab".data "cd".data libSmall = .ok (some candFlac) :=
  (c7_staged_resolution "ab".data "cd".data libSmall).2.2.2.1 candFlac
    [candMp3, candTrack] (by decide)

/-- C8.  A file examined during retrieval is accepted as a candidate
exactly when it has an audio extension and
`combined >= min_combined`, `artist_folder_sim >= min_artist` and
`title_sim >= min_title` all hold, where `combined` is the weighted
blend without the FLAC bonus; the flat 0.05 bonus only enters the
accepted candidate's `similarity` (final score), never the acceptance
test. -/
theorem c8_threshold_acceptance (artistDir albumPath searchArtist
    searchTitle : List Char) (artistSim : ℚ) (t : Thresholds)
    (file : List Char) :
    ((processFile artistDir albumPath searchArtist searchTitle artistSim
        t file).isSome = true ↔
      (isAudioFile file = true ∧
       t.minCombined ≤ combinedSim artistSim
         (fileArtistSimOf artistDir searchArtist file)
         (titleSimOf artistDir searchTitle file) ∧
       t.minArtist ≤ artistSim ∧
       t.minTitle ≤ titleSimOf artistDir searchTitle file)) ∧
    (∀ c, processFile artistDir albumPath searchArtist searchTitle
        artistSim t file = some c →
      c.similarity = ratAdd
        (combinedSim artistSim (fileArtistSimOf artistDir searchArtist file)
          (titleSimOf artistDir searchTitle file))
        (if isFlacFile file then mkRat 1 20 else 0) ∧
      c.artist_sim = artistSim ∧
      c.title_sim = titleSimOf artistDir searchTitle file ∧
      c.is_flac = isFlacFile file ∧
      c.is_live = isLiveVersion file ∧
      c.path = joinPath albumPath file) := by
  unfold processFile
  constructor
  · by_cases ha : isAudioFile file
    · simp only [ha, if_true, true_and]
      split
      · next hthr => simp only [Option.isSome_some, true_iff]; exact ⟨hthr.1, hthr.2.1, hthr.2.2⟩
      · next hthr =>
        simp only [Option.isSome_none, Bool.false_eq_true, false_iff]
        intro hc
        exact hthr ⟨hc.1, hc.2.1, hc.2.2⟩
    · simp [ha]
  · intro c hc
    by_cases ha : isAudioFile file
    · simp only [ha, if_true] at hc
      split at hc
      · cases hc
        exact ⟨rfl, rfl, rfl, rfl, rfl, rfl⟩
      · exact absurd hc (by simp)
    · simp [ha] at hc

theorem c8_threshold_acceptance_witness :
    (processFile "ab".data "m/ab/al".data (normalizeText "ab".data)
        (normalizeText "cd".data) (mkRat 1 1) stage1T
        "cd.flac".data).isSome = true ∧
    candFlac.similarity = ratAdd
      (combinedSim (mkRat 1 1)
        (fileArtistSimOf "ab".data (normalizeText "ab".data) "cd.flac".data)
        (titleSimOf "ab".data (normalizeText "cd".data) "cd.flac".data))
      (if isFlacFile "cd.flac".data then mkRat 1 20 else 0) :=
  ⟨(c8_threshold_acceptance "ab".data "m/ab/al".data
      (normalizeText "ab".data) (normalizeText "cd".data) (mkRat 1 1)
      stage1T "cd.flac".data).1.mpr (by decide),
   ((c8_threshold_acceptance "ab".data "m/ab/al".data
      (normalizeText "ab".data) (normalizeText "cd".data) (mkRat 1 1)
      stage1T "cd.flac".data).2 candFlac (by decide)).1⟩

/-- C9.  The interactive disambiguator runs at the loose thresholds
(0.3, 0.2, 0.3).  With zero candidates it returns `none` without
consuming any reply (no selection is requested).  In the selection
loop, a reply that is not the skip letter and either fails to parse as
an integer or parses outside `[1, min(len(matches), 10)]` is discarded
and the loop re-prompts on the remaining replies; `none` is returned
only when some consumed reply is the explicit skip; a valid index `n`
returns `matches[n-1]`. -/
theorem c9_interactive_contract :
    looseT = ⟨mkRat 3 10, mkRat 1 5, mkRat 3 10⟩ ∧
    (∀ artist title lib inputs,
      findBestMatches artist title lib looseT = .ok [] →
      interactiveSearch artist title lib inputs = .ok (none, inputs)) ∧
    (∀ ms inp rest, replyKey inp ≠ ['s'] →
      (pyInt (replyKey inp) = none ∨
        (∃ n, pyInt (replyKey inp) = some n ∧
          ¬(1 ≤ n ∧ n ≤ ((min ms.length 10 : Nat) : Int)))) →
      selLoop ms (inp :: rest) = selLoop ms rest) ∧
    (∀ ms inputs rest, selLoop ms inputs = .ok (none, rest) →
      ∃ inp, inp ∈ inputs ∧ replyKey inp = ['s']) ∧
    (∀ ms inp rest (n : Int), replyKey inp ≠ ['s'] →
      pyInt (replyKey inp) = some n → 1 ≤ n →
      n ≤ ((min ms.length 10 : Nat) : Int) →
      selLoop ms (inp :: rest) =
        .ok (some (ms.getD (n - 1).toNat default), rest)) := by
  refine ⟨rfl, ?_, ?_, ?_, ?_⟩
  · intro artist title lib inputs h
    unfold interactiveSearch
    rw [h]
  · intro ms inp rest hskip hbad
    simp only [selLoop, if_neg hskip]
    rcases hbad with hnone | ⟨n, hn, hrange⟩
    · rw [hnone]
    · simp only [hn]
      rw [if_neg hrange]
  · intro ms inputs
    induction inputs with
    | nil =>
      intro rest h
      exact absurd h (by simp [selLoop])
    | cons inp rest ih =>
      intro rest2 h
      by_cases hskip : replyKey inp = ['s']
      · exact ⟨inp, List.mem_cons_self inp rest, hskip⟩
      · simp only [selLoop, if_neg hskip] at h
        cases hn : pyInt (replyKey inp) with
        | none =>
          rw [hn] at h
          obtain ⟨i, hi, hk⟩ := ih rest2 h
          exact ⟨i, List.mem_cons_of_mem inp hi, hk⟩
        | some n =>
          simp only [hn] at h
          by_cases hr : 1 ≤ n ∧ n ≤ ((min ms.length 10 : Nat) : Int)
          · rw [if_pos hr] at h
            simp at h
          · rw [if_neg hr] at h
            obtain ⟨i, hi, hk⟩ := ih rest2 h
            exact ⟨i, List.mem_cons_of_mem inp hi, hk⟩
  · intro ms inp rest n hskip hn h1 h2
    simp only [selLoop, if_neg hskip, hn]
    rw [if_pos ⟨h1, h2⟩]

theorem c9_interactive_contract_witness :
    interactiveSearch "zz".data "yy".data libSmall [['1']] =
      .ok (none, [['1']]) ∧
    selLoop [candFlac, candMp3, candTrack] [['2']] =
      .ok (some candMp3, []) :=
  ⟨c9_interactive_contract.2.1 "zz".data "yy".data libSmall [['1']]
      (by decide),
   by
    have h := c9_interactive_contract.2.2.2.2
      [candFlac, candMp3, candTrack] ['2'] [] 2 (by decide) (by decide)
      (by decide) (by decide)
    simpa using h⟩

theorem keyLe_total (c d : Candidate) :
    keyLe c d = true ∨ keyLe d c = true := by
  unfold keyLe
  rcases le_total c.similarity d.similarity with h | h <;>
    cases hl1 : c.is_live <;> cases hl2 : d.is_live <;>
    cases hf1 : c.is_flac <;> cases hf2 : d.is_flac <;>
    simp_all

theorem keyLe_trans (a b c : Candidate) (h1 : keyLe a b = true)
    (h2 : keyLe b c = true) : keyLe a c = true := by
  unfold keyLe at *
  cases hl1 : a.is_live <;> cases hl2 : b.is_live <;>
    cases hl3 : c.is_live <;>
    cases hf1 : a.is_flac <;> cases hf2 : b.is_flac <;>
    cases hf3 : c.is_flac <;>
    simp_all <;>
    exact le_trans h2 h1

theorem keyLe_of_keyOf_eq (c d : Candidate) (h : keyOf c = keyOf d) :
    keyLe c d = true := by
  unfold keyOf at h
  obtain ⟨h1, h2, h3⟩ : c.is_live = d.is_live ∧ c.is_flac = d.is_flac ∧
      c.similarity = d.similarity := by
    have ha := congrArg Prod.fst h
    have hb := congrArg (fun p => p.2.1) h
    have hc := congrArg (fun p => p.2.2) h
    exact ⟨ha, hb, hc⟩
  unfold keyLe
  rw [h1, h2, h3]
  simp

theorem beforeOk_of_keyLe (c d : Candidate) (h : keyLe c d = true) :
    beforeOk c d := by
  unfold keyLe at h
  unfold beforeOk
  cases hl1 : c.is_live <;> cases hl2 : d.is_live <;>
    cases hf1 : c.is_flac <;> cases hf2 : d.is_flac <;>
    simp_all

theorem mem_insertLe (le : α → α → Bool) (x z : α) (l : List α) :
    z ∈ insertLe le x l ↔ z = x ∨ z ∈ l := by
  induction l with
  | nil => simp [insertLe]
  | cons y ys ih =>
    unfold insertLe
    split
    · simp
    · simp only [List.mem_cons, ih]
      tauto

theorem insertLe_pairwise (le : α → α → Bool)
    (htotal : ∀ a b, le a b = true ∨ le b a = true)
    (htrans : ∀ a b c, le a b = true → le b c = true → le a c = true)
    (x : α) (l : List α)
    (h : l.Pairwise (fun a b => le a b = true)) :
    (insertLe le x l).Pairwise (fun a b => le a b = true) := by
  induction l with
  | nil => simp [insertLe]
  | cons y ys ih =>
    rw [List.pairwise_cons] at h
    unfold insertLe
    split
    · next hxy =>
      rw [List.pairwise_cons]
      refine ⟨?_, List.pairwise_cons.mpr h⟩
      intro z hz
      rcases List.mem_cons.mp hz with rfl | hz2
      · exact hxy
      · exact htrans x y z hxy (h.1 z hz2)
    · next hxy =>
      have hyx : le y x = true := by
        rcases htotal x y with h2 | h2
        · exact absurd h2 hxy
        · exact h2
      rw [List.pairwise_cons]
      refine ⟨?_, ih h.2⟩
      intro z hz
      rcases (mem_insertLe le x z ys).mp hz with rfl | hz2
      · exact hyx
      · exact h.1 z hz2

theorem insSort_pairwise (le : α → α → Bool)
    (htotal : ∀ a b, le a b = true ∨ le b a = true)
    (htrans : ∀ a b c, le a b = true → le b c = true → le a c = true)
    (l : List α) :
    (insSort le l).Pairwise (fun a b => le a b = true) := by
  induction l with
  | nil => simp [insSort]
  | cons x xs ih =>
    exact insertLe_pairwise le htotal htrans x (insSort le xs) ih

theorem filter_insertLe (x : Candidate) (ys : List Candidate)
    (k : Bool × Bool × ℚ) :
    (insertLe keyLe x ys).filter (fun c => decide (keyOf c = k)) =
      (x :: ys).filter (fun c => decide (keyOf c = k)) := by
  induction ys with
  | nil => rfl
  | cons y ys ih =>
    unfold insertLe
    split
    · rfl
    · next hxy =>
      have hkneq : ¬(keyOf x = k ∧ keyOf y = k) := by
        rintro ⟨h1, h2⟩
        exact hxy (keyLe_of_keyOf_eq x y (h1.trans h2.symm))
      by_cases hx : keyOf x = k
      · have hy : ¬ keyOf y = k := fun h => hkneq ⟨hx, h⟩
        simp [List.filter_cons, hx, hy, ih]
      · by_cases hy : keyOf y = k <;>
          simp [List.filter_cons, hx, hy, ih]

theorem filter_insSort (l : List Candidate) (k : Bool × Bool × ℚ) :
    (insSort keyLe l).filter (fun c => decide (keyOf c = k)) =
      l.filter (fun c => decide (keyOf c = k)) := by
  induction l with
  | nil => rfl
  | cons x xs ih =>
    unfold insSort
    rw [filter_insertLe]
    by_cases hx : keyOf x = k <;> simp [List.filter_cons, hx, ih]

/-- C6.  The candidate list returned by `find_best_matches` is the
stable sort of the discovery-order list under the composite key:
every adjacent-in-order pair is related by `beforeOk` (non-live before
live regardless of score; within equal liveness FLAC before non-FLAC
regardless of score; within equal liveness and format, descending
final score), and for every key value the candidates with exactly that
key appear in their original discovery order. -/
theorem c6_sorted_stable (artist title : List Char) (lib : Library)
    (t : Thresholds) (l : List Candidate)
    (h : findBestMatches artist title lib t = .ok l) :
    ∃ raw, findBestMatchesRaw artist title lib t = .ok raw ∧
      l = insSort keyLe raw ∧
      l.Pairwise beforeOk ∧
      ∀ k : Bool × Bool × ℚ,
        l.filter (fun c => decide (keyOf c = k)) =
          raw.filter (fun c => decide (keyOf c = k)) := by
  unfold findBestMatches at h
  rcases hr : findBestMatchesRaw artist title lib t with e | raw
  · rw [hr] at h; exact absurd h (by simp)
  · rw [hr] at h
    have hl : l = insSort keyLe raw := (Except.ok.inj h).symm
    subst hl
    refine ⟨raw, rfl, rfl, ?_, fun k => filter_insSort raw k⟩
    have hp := insSort_pairwise keyLe keyLe_total keyLe_trans raw
    exact hp.imp (fun hab => beforeOk_of_keyLe _ _ hab)

theorem c6_sorted_stable_witness :
    [candFlac, candMp3, candTrack].Pairwise beforeOk ∧
    [candFlac, candMp3, candTrack].filter
        (fun c => decide (keyOf c = (false, false, mkRat 1 1))) =
      [candMp3, candFlac, candTrack].filter
        (fun c => decide (keyOf c = (false, false, mkRat 1 1))) := by
  obtain ⟨raw, hraw, hsort, hpair, hfil⟩ :=
    c6_sorted_stable "ab".data "cd".data libSmall stage1T
      [candFlac, candMp3, candTrack] (by decide)
  have h2 : findBestMatchesRaw "ab".data "cd".data libSmall stage1T =
      .ok [candMp3, candFlac, candTrack] := by decide
  rw [h2] at hraw
  have : raw = [candMp3, candFlac, candTrack] := (Except.ok.inj hraw).symm
  subst this
  exact ⟨hpair, hfil (false, false, mkRat 1 1)⟩

theorem mem_insSort (le : α → α → Bool) (z : α) (l : List α) :
    z ∈ insSort le l ↔ z ∈ l := by
  induction l with
  | nil => simp [insSort]
  | cons x xs ih =>
    unfold insSort
    rw [mem_insertLe, ih]
    simp

theorem processFile_mono (artistDir albumPath sa st : List Char)
    (asim : ℚ) (t t' : Thresholds)
    (h1 : t.minCombined ≤ t'.minCombined)
    (h2 : t.minArtist ≤ t'.minArtist) (h3 : t.minTitle ≤ t'.minTitle)
    (file : List Char) (c : Candidate)
    (h : processFile artistDir albumPath sa st asim t' file = some c) :
    processFile artistDir albumPath sa st asim t file = some c := by
  unfold processFile at h ⊢
  by_cases ha : isAudioFile file
  · simp only [ha, if_true] at h ⊢
    split at h
    · next hth =>
      cases h
      rw [if_pos ⟨le_trans h1 hth.1, le_trans h2 hth.2.1,
        le_trans h3 hth.2.2⟩]
    · exact absurd h (by simp)
  · simp [ha] at h

theorem processAlbum_mono (artistDir artistPath sa st : List Char)
    (asim : ℚ) (t t' : Thresholds)
    (h1 : t.minCombined ≤ t'.minCombined)
    (h2 : t.minArtist ≤ t'.minArtist) (h3 : t.minTitle ≤ t'.minTitle)
    (album : Album) (l : List Candidate)
    (h : processAlbum artistDir artistPath sa st asim t album = .ok l) :
    ∃ l', processAlbum artistDir artistPath sa st asim t' album = .ok l' ∧
      ∀ c ∈ l', c ∈ l := by
  unfold processAlbum at h ⊢
  by_cases hd : album.isDir
  · simp only [hd, if_true] at h ⊢
    rcases hf : album.files with e | files
    · rw [hf] at h; simp at h
    · rw [hf] at h
      have hl : files.filterMap
          (processFile artistDir (joinPath artistPath album.name)
            sa st asim t) = l := Except.ok.inj h
      refine ⟨_, rfl, ?_⟩
      intro c hc
      rw [← hl]
      rw [List.mem_filterMap] at hc ⊢
      obtain ⟨file, hfile, hpf⟩ := hc
      exact ⟨file, hfile,
        processFile_mono artistDir (joinPath artistPath album.name)
          sa st asim t t' h1 h2 h3 file c hpf⟩
  · simp only [hd, if_false] at h ⊢
    cases h
    exact ⟨[], rfl, by simp⟩

theorem collectE_mono {α β : Type} (f f' : α → Except PyErr (List β))
    (hmono : ∀ a l, f a = .ok l →
      ∃ l', f' a = .ok l' ∧ ∀ c ∈ l', c ∈ l)
    (as : List α) (L : List β) (h : collectE f as = .ok L) :
    ∃ L', collectE f' as = .ok L' ∧ ∀ c ∈ L', c ∈ L := by
  induction as generalizing L with
  | nil =>
    cases h
    exact ⟨[], rfl, by simp⟩
  | cons a rest ih =>
    unfold collectE at h ⊢
    rcases hfa : f a with e | la
    · rw [hfa] at h; exact absurd h (by simp)
    · rw [hfa] at h
      rcases hcr : collectE f rest with e | ls
      · rw [hcr] at h; exact absurd h (by simp)
      · rw [hcr] at h
        have hL : la ++ ls = L := Except.ok.inj h
        obtain ⟨la', hfa', hsub1⟩ := hmono a la hfa
        obtain ⟨ls', hcr', hsub2⟩ := ih ls hcr
        rw [hfa', hcr']
        refine ⟨la' ++ ls', rfl, ?_⟩
        intro c hc
        rw [← hL]
        rcases List.mem_append.mp hc with hc1 | hc2
        · exact List.mem_append.mpr (.inl (hsub1 c hc1))
        · exact List.mem_append.mpr (.inr (hsub2 c hc2))

theorem processArtist_mono (root sa st : List Char) (t t' : Thresholds)
    (h1 : t.minCombined ≤ t'.minCombined)
    (h2 : t.minArtist ≤ t'.minArtist) (h3 : t.minTitle ≤ t'.minTitle)
    (artist : Artist) (l : List Candidate)
    (h : processArtist root sa st t artist = .ok l) :
    ∃ l', processArtist root sa st t' artist = .ok l' ∧
      ∀ c ∈ l', c ∈ l := by
  unfold processArtist at h ⊢
  by_cases hd : artist.isDir
  · simp only [hd, if_true] at h ⊢
    by_cases hpr : similarity sa (normalizeText artist.name) < t.minArtist
    · rw [if_pos hpr] at h
      cases h
      rw [if_pos (lt_of_lt_of_le hpr h2)]
      exact ⟨[], rfl, by simp⟩
    · rw [if_neg hpr] at h
      by_cases hpr2 : similarity sa (normalizeText artist.name) <
          t'.minArtist
      · rw [if_pos hpr2]
        exact ⟨[], rfl, by simp⟩
      · rw [if_neg hpr2]
        rcases hal : artist.albums with e | albums
        · rw [hal] at h; simp at h
        · rw [hal] at h
          exact collectE_mono _ _
            (fun a la hla => processAlbum_mono artist.name
              (joinPath root artist.name) sa st _ t t' h1 h2 h3 a la hla)
            albums l h
  · simp only [hd, if_false] at h ⊢
    cases h
    exact ⟨[], rfl, by simp⟩

/-- C10 (amended).  Retrieval is monotone in the thresholds whenever
the looser scan completes without raising: every candidate returned at
the (componentwise) stricter thresholds — same path, same scores and
flags — is also returned at the looser thresholds.  (Without the
completion proviso this fails: see the counterexample, where loosening
`min_artist` makes the scan enter an unreadable folder and raise.) -/
theorem c10_monotone_when_ok (artist title : List Char) (lib : Library)
    (t t' : Thresholds)
    (h1 : t.minCombined ≤ t'.minCombined)
    (h2 : t.minArtist ≤ t'.minArtist) (h3 : t.minTitle ≤ t'.minTitle)
    (l : List Candidate)
    (h : findBestMatches artist title lib t = .ok l) :
    ∃ l', findBestMatches artist title lib t' = .ok l' ∧
      ∀ c ∈ l', c ∈ l := by
  unfold findBestMatches at h ⊢
  rcases hr : findBestMatchesRaw artist title lib t with e | raw
  · rw [hr] at h; exact absurd h (by simp)
  · rw [hr] at h
    have hl : insSort keyLe raw = l := Except.ok.inj h
    have hraw : ∃ raw', findBestMatchesRaw artist title lib t' = .ok raw' ∧
        ∀ c ∈ raw', c ∈ raw := by
      unfold findBestMatchesRaw at hr ⊢
      by_cases hex : lib.pathExists
      · simp only [hex, if_true] at hr ⊢
        rcases has : lib.artists with e | arts
        · rw [has] at hr; simp at hr
        · rw [has] at hr
          exact collectE_mono _ _
            (fun a la hla => processArtist_mono lib.root
              (normalizeText artist) (normalizeText title) t t'
              h1 h2 h3 a la hla) arts raw hr
      · simp only [hex, if_false] at hr ⊢
        cases hr
        exact ⟨[], rfl, by simp⟩
    obtain ⟨raw', hr', hsub⟩ := hraw
    rw [hr']
    refine ⟨insSort keyLe raw', rfl, ?_⟩
    intro c hc
    rw [← hl, mem_insSort]
    exact hsub c ((mem_insSort keyLe c raw').mp hc)

theorem c10_monotone_when_ok_witness :
    ∃ l', findBestMatches "ab".data "cd".data libSmall stage1T = .ok l' ∧
      ∀ c ∈ l', c ∈ [candFlac, candMp3, candTrack] :=
  c10_monotone_when_ok "ab".data "cd".data libSmall looseT stage1T
    (by decide) (by decide) (by decide) [candFlac, candMp3, candTrack]
    (by decide)

theorem dropWhile_head_false (p : Char → Bool) (l : List Char) (c : Char)
    (cs : List Char) (h : l.dropWhile p = c :: cs) : p c = false := by
  induction l with
  | nil => simp at h
  | cons a rest ih =>
    rw [List.dropWhile_cons] at h
    split at h
    · exact ih h
    · next hpa =>
      cases h
      exact Bool.not_eq_true _ |>.mp hpa

theorem dropWhile_eq_self_of_head (p : Char → Bool) (l : List Char)
    (h : ∀ c cs, l = c :: cs → p c = false) : l.dropWhile p = l := by
  cases l with
  | nil => rfl
  | cons c cs =>
    rw [List.dropWhile_cons, if_neg]
    simp [h c cs rfl]

theorem getLast?_suffix (l m : List Char) (c : Char) (hs : l <:+ m)
    (h : l.getLast? = some c) : m.getLast? = some c := by
  obtain ⟨t, rfl⟩ := hs
  rw [List.getLast?_append, h]
  rfl

theorem stripEnds_head_false (s : List Char) (c : Char) (cs : List Char)
    (h : stripEnds s = c :: cs) : pyIsSpace c = false := by
  unfold stripEnds at h
  have h2 : ((s.dropWhile pyIsSpace).reverse.dropWhile
      pyIsSpace).getLast? = some c := by
    rw [← List.head?_reverse, h]
    rfl
  have h3 : (s.dropWhile pyIsSpace).reverse.getLast? = some c :=
    getLast?_suffix _ _ c (List.dropWhile_suffix pyIsSpace) h2
  rw [List.getLast?_reverse] at h3
  rcases hd : s.dropWhile pyIsSpace with _ | ⟨d, ds⟩
  · rw [hd] at h3; simp at h3
  · rw [hd] at h3
    simp at h3
    rw [← h3]
    exact dropWhile_head_false pyIsSpace s d ds hd

theorem stripEnds_last_false (s : List Char) (c : Char)
    (h : (stripEnds s).getLast? = some c) : pyIsSpace c = false := by
  unfold stripEnds at h
  rw [List.getLast?_reverse] at h
  rcases hd : (s.dropWhile pyIsSpace).reverse.dropWhile pyIsSpace with
    _ | ⟨d, ds⟩
  · rw [hd] at h; simp at h
  · rw [hd] at h
    simp at h
    rw [← h]
    exact dropWhile_head_false pyIsSpace _ d ds hd

theorem stripEnds_idem (s : List Char) :
    stripEnds (stripEnds s) = stripEnds s := by
  have h1 : (stripEnds s).dropWhile pyIsSpace = stripEnds s :=
    dropWhile_eq_self_of_head pyIsSpace (stripEnds s)
      (fun c cs h => stripEnds_head_false s c cs h)
  show (((stripEnds s).dropWhile pyIsSpace).reverse.dropWhile
      pyIsSpace).reverse = stripEnds s
  rw [h1]
  have h2 : (stripEnds s).reverse.dropWhile pyIsSpace =
      (stripEnds s).reverse := by
    apply dropWhile_eq_self_of_head
    intro c cs h
    have : (stripEnds s).getLast? = some c := by
      rw [← List.head?_reverse, h]; rfl
    exact stripEnds_last_false s c this
  rw [h2, List.reverse_reverse]

theorem mem_stripEnds (s : List Char) (c : Char) (h : c ∈ stripEnds s) :
    c ∈ s := by
  unfold stripEnds at h
  rw [List.mem_reverse] at h
  have h2 := (List.dropWhile_sublist pyIsSpace).mem h
  rw [List.mem_reverse] at h2
  exact (List.dropWhile_sublist pyIsSpace).mem h2

theorem collapseWs_head (d : Char) (r : List Char) :
    (collapseWs (d :: r)).head? =
      some (if pyIsSpace d then ' ' else d) := by
  induction r generalizing d with
  | nil =>
    unfold collapseWs
    split <;> simp_all
  | cons e r2 ih =>
    show (collapseWs (d :: e :: r2)).head? = _
    unfold collapseWs
    by_cases hd : pyIsSpace d
    · by_cases he : pyIsSpace e
      · simp only [hd, he, if_true]
        rw [ih e]
        simp [he]
      · simp [hd, he]
    · simp [hd]

theorem mem_collapseWs (l : List Char) (c : Char)
    (h : c ∈ collapseWs l) : c = ' ' ∨ c ∈ l := by
  induction l with
  | nil => simp [collapseWs] at h
  | cons c0 tail ih =>
    cases tail with
    | nil =>
      unfold collapseWs at h
      split at h <;> simp_all
    | cons d r =>
      unfold collapseWs at h
      by_cases h1 : pyIsSpace c0
      · by_cases h2 : pyIsSpace d
        · simp only [h1, h2, if_true] at h
          rcases ih h with h3 | h3
          · exact .inl h3
          · exact .inr (List.mem_cons_of_mem c0 h3)
        · simp only [h1, h2, if_true, if_false] at h
          rcases List.mem_cons.mp h with h3 | h3
          · exact .inl h3
          · rcases ih h3 with h4 | h4
            · exact .inl h4
            · exact .inr (List.mem_cons_of_mem c0 h4)
      · simp only [h1, if_false] at h
        rcases List.mem_cons.mp h with h3 | h3
        · exact .inr (h3 ▸ List.mem_cons_self c0 _)
        · rcases ih h3 with h4 | h4
          · exact .inl h4
          · exact .inr (List.mem_cons_of_mem c0 h4)

theorem collapseWs_wsOk (l : List Char) : wsOkP (collapseWs l) := by
  induction l with
  | nil => exact ⟨by simp [collapseWs], by simp [collapseWs]⟩
  | cons c0 tail ih =>
    cases tail with
    | nil =>
      constructor
      · intro c hc hsp
        unfold collapseWs at hc
        split at hc <;> simp_all
      · unfold collapseWs
        split <;> simp
    | cons d r =>
      unfold collapseWs
      by_cases h1 : pyIsSpace c0
      · by_cases h2 : pyIsSpace d
        · rw [if_pos h1, if_pos h2]; exact ih
        · rw [if_pos h1, if_neg h2]
          constructor
          · intro c hc hsp
            rcases List.mem_cons.mp hc with h3 | h3
            · exact h3
            · exact ih.1 c h3 hsp
          · rw [List.chain'_cons']
            refine ⟨?_, ih.2⟩
            intro y hy
            rw [collapseWs_head d r, if_neg h2] at hy
            simp only [Option.mem_def, Option.some.injEq] at hy
            subst hy
            rintro ⟨-, hsp2⟩
            exact absurd hsp2 h2
      · rw [if_neg h1]
        constructor
        · intro c hc hsp
          rcases List.mem_cons.mp hc with h3 | h3
          · subst h3; exact absurd hsp (by simp [h1])
          · exact ih.1 c h3 hsp
        · rw [List.chain'_cons']
          refine ⟨?_, ih.2⟩
          intro y hy
          rintro ⟨hsp1, -⟩
          exact absurd hsp1 (by simp [h1])

theorem collapseWs_eq_self_of_wsOk (l : List Char) (h : wsOkP l) :
    collapseWs l = l := by
  induction l with
  | nil => rfl
  | cons c0 tail ih =>
    cases tail with
    | nil =>
      unfold collapseWs
      split
      · next hsp => rw [h.1 c0 (List.mem_cons_self c0 []) hsp]
      · rfl
    | cons d r =>
      have hch := List.chain'_cons'.mp h.2
      have hrel := hch.1 d (by rfl)
      have htail : wsOkP (d :: r) :=
        ⟨fun c hc hsp => h.1 c (List.mem_cons_of_mem c0 hc) hsp, hch.2⟩
      unfold collapseWs
      by_cases h1 : pyIsSpace c0
      · by_cases h2 : pyIsSpace d
        · exact absurd ⟨h1, h2⟩ hrel
        · rw [if_pos h1, if_neg h2, ih htail,
            h.1 c0 (List.mem_cons_self c0 _) h1]
      · rw [if_neg h1, ih htail]

theorem wsOkP_suffix (l m : List Char) (hs : l <:+ m) (h : wsOkP m) :
    wsOkP l :=
  ⟨fun c hc hsp => h.1 c (hs.mem hc) hsp, h.2.suffix hs⟩

theorem wsOkP_reverse (l : List Char) (h : wsOkP l) :
    wsOkP l.reverse := by
  constructor
  · intro c hc hsp
    exact h.1 c (List.mem_reverse.mp hc) hsp
  · rw [List.chain'_reverse]
    exact h.2.imp (fun a b hab => fun ⟨x, y⟩ => hab ⟨y, x⟩)

theorem wsOkP_stripEnds (l : List Char) (h : wsOkP l) :
    wsOkP (stripEnds l) := by
  unfold stripEnds
  apply wsOkP_reverse
  exact wsOkP_suffix _ _ (List.dropWhile_suffix pyIsSpace)
    (wsOkP_reverse _ (wsOkP_suffix _ _ (List.dropWhile_suffix pyIsSpace) h))

theorem startSpan_none_of_not_mem (openC closeC : Char)
    (hasQ : List Char → Bool) (s : List Char) (h : openC ∉ s) :
    startSpan openC closeC hasQ s = none := by
  unfold startSpan
  rcases hd : s.dropWhile pyIsSpace with _ | ⟨c, t⟩
  · rfl
  · have hc : c ∈ s := by
      have : c ∈ s.dropWhile pyIsSpace := by rw [hd]; exact List.mem_cons_self c t
      exact (List.dropWhile_sublist pyIsSpace).mem this
    dsimp only
    rw [if_neg]
    intro he
    exact h (he ▸ hc)

theorem startSpan_sublist (openC closeC : Char) (hasQ : List Char → Bool)
    (s rem : List Char) (h : startSpan openC closeC hasQ s = some rem) :
    rem.Sublist s := by
  unfold startSpan at h
  rcases hd : s.dropWhile pyIsSpace with _ | ⟨c, t⟩
  · rw [hd] at h; simp at h
  · rw [hd] at h
    dsimp only at h
    by_cases hc : c = openC
    · rw [if_pos hc] at h
      unfold trySpan at h
      rcases hd2 : t.dropWhile (fun x => x ≠ closeC) with _ | ⟨c2, after⟩
      · rw [hd2] at h; simp at h
      · rw [hd2] at h
        dsimp only at h
        have hrem : after = rem := by
          split at h
          · exact Option.some.inj h
          · simp at h
        subst hrem
        have s1 : after.Sublist (c2 :: after) := List.sublist_cons_self c2 after
        have s2 : (c2 :: after).Sublist t := by
          rw [← hd2]; exact List.dropWhile_sublist _
        have s3 : t.Sublist (c :: t) := List.sublist_cons_self c t
        have s4 : (c :: t).Sublist s := by
          rw [← hd]; exact List.dropWhile_sublist _
        exact ((s1.trans s2).trans s3).trans s4
    · rw [if_neg hc] at h; simp at h

theorem subQualGo_id (openC closeC : Char) (hasQ : List Char → Bool)
    (fuel : Nat) (l : List Char) (h : openC ∉ l) :
    subQualGo openC closeC hasQ fuel l = l := by
  induction l generalizing fuel with
  | nil => cases fuel <;> rfl
  | cons c rest ih =>
    cases fuel with
    | zero => rfl
    | succ fuel2 =>
      show (match startSpan openC closeC hasQ (c :: rest) with
        | some rem => subQualGo openC closeC hasQ fuel2 rem
        | none => c :: subQualGo openC closeC hasQ fuel2 rest) = c :: rest
      rw [startSpan_none_of_not_mem openC closeC hasQ (c :: rest) h]
      rw [ih fuel2 (fun hm => h (List.mem_cons_of_mem c hm))]

theorem subQual_id (openC closeC : Char) (hasQ : List Char → Bool)
    (s : List Char) (h : openC ∉ s) :
    subQual openC closeC hasQ s = s :=
  subQualGo_id openC closeC hasQ s.length s h

theorem mem_subQualGo (openC closeC : Char) (hasQ : List Char → Bool)
    (fuel : Nat) (l : List Char) (c : Char)
    (h : c ∈ subQualGo openC closeC hasQ fuel l) : c ∈ l := by
  induction fuel generalizing l with
  | zero =>
    cases l with
    | nil => simp [subQualGo] at h
    | cons x xs => exact h
  | succ fuel2 ih =>
    cases l with
    | nil => simp [subQualGo] at h
    | cons x xs =>
      have hstep : subQualGo openC closeC hasQ (fuel2 + 1) (x :: xs) =
          match startSpan openC closeC hasQ (x :: xs) with
          | some rem => subQualGo openC closeC hasQ fuel2 rem
          | none => x :: subQualGo openC closeC hasQ fuel2 xs := rfl
      rw [hstep] at h
      rcases hs : startSpan openC closeC hasQ (x :: xs) with _ | rem
      · rw [hs] at h
        dsimp only at h
        rcases List.mem_cons.mp h with h2 | h2
        · exact h2 ▸ List.mem_cons_self x xs
        · exact List.mem_cons_of_mem x (ih xs h2)
      · rw [hs] at h
        dsimp only at h
        exact (startSpan_sublist openC closeC hasQ (x :: xs) rem hs).mem
          (ih rem h)

theorem mem_subQual (openC closeC : Char) (hasQ : List Char → Bool)
    (s : List Char) (c : Char) (h : c ∈ subQual openC closeC hasQ s) :
    c ∈ s :=
  mem_subQualGo openC closeC hasQ s.length s c h

theorem applyPatterns_eq (s : List Char) :
    applyPatterns s =
      subQual '[' ']' hasYear
        (subQual '[' ']' (hasSub "remaster".data)
          (subQual '(' ')' hasYear
            (subQual '(' ')' (hasSub "mix".data)
              (subQual '(' ')' (hasSub "version".data)
                (subQual '(' ')' (hasSub "edit".data)
                  (subQual '(' ')' (hasSub "remix".data)
                    (subQual '(' ')' (hasSub "remaster".data) s))))))) := by
  unfold applyPatterns patternList
  simp only [List.foldl_cons, List.foldl_nil]

theorem mem_applyPatterns (s : List Char) (c : Char)
    (h : c ∈ applyPatterns s) : c ∈ s := by
  rw [applyPatterns_eq] at h
  exact mem_subQual _ _ _ _ c (mem_subQual _ _ _ _ c (mem_subQual _ _ _ _ c
    (mem_subQual _ _ _ _ c (mem_subQual _ _ _ _ c (mem_subQual _ _ _ _ c
      (mem_subQual _ _ _ _ c (mem_subQual _ _ _ _ c h)))))))

theorem applyPatterns_id (s : List Char) (h1 : '(' ∉ s) (h2 : '[' ∉ s) :
    applyPatterns s = s := by
  rw [applyPatterns_eq]
  rw [subQual_id '(' ')' (hasSub "remaster".data) s h1]
  rw [subQual_id '(' ')' (hasSub "remix".data) s h1]
  rw [subQual_id '(' ')' (hasSub "edit".data) s h1]
  rw [subQual_id '(' ')' (hasSub "version".data) s h1]
  rw [subQual_id '(' ')' (hasSub "mix".data) s h1]
  rw [subQual_id '(' ')' hasYear s h1]
  rw [subQual_id '[' ']' (hasSub "remaster".data) s h2]
  rw [subQual_id '[' ']' hasYear s h2]

theorem mem_replaceChar (k : Char) (out s : List Char) (c : Char)
    (h : c ∈ replaceChar k out s) : c ∈ out ∨ (c ∈ s ∧ c ≠ k) := by
  unfold replaceChar at h
  rw [List.mem_flatMap] at h
  obtain ⟨d, hd, hc⟩ := h
  by_cases hdk : d = k
  · rw [if_pos hdk] at hc
    exact .inl hc
  · rw [if_neg hdk] at hc
    rcases List.mem_singleton.mp hc with rfl
    exact .inr ⟨hd, hdk⟩

theorem replaceChar_id (k : Char) (out s : List Char) (h : k ∉ s) :
    replaceChar k out s = s := by
  unfold replaceChar
  induction s with
  | nil => rfl
  | cons d rest ih =>
    rw [List.flatMap_cons]
    rw [if_neg (fun hdk => h (by
      rw [← hdk]; exact List.mem_cons_self d rest))]
    rw [ih (fun hm => h (List.mem_cons_of_mem d hm))]
    rfl

theorem mem_applyReplAux (rl : List (Char × List Char)) (s : List Char)
    (c : Char)
    (h : c ∈ rl.foldl (fun acc kv => replaceChar kv.1 kv.2 acc) s) :
    (∃ kv ∈ rl, c ∈ kv.2) ∨ (c ∈ s ∧ ∀ kv ∈ rl, c ≠ kv.1) := by
  induction rl generalizing s with
  | nil => exact .inr ⟨h, by simp⟩
  | cons kv rest ih =>
    rw [List.foldl_cons] at h
    rcases ih (replaceChar kv.1 kv.2 s) h with h2 | ⟨h2, h3⟩
    · obtain ⟨kv2, hkv2, hc⟩ := h2
      exact .inl ⟨kv2, List.mem_cons_of_mem kv hkv2, hc⟩
    · rcases mem_replaceChar kv.1 kv.2 s c h2 with h4 | ⟨h4, h5⟩
      · exact .inl ⟨kv, List.mem_cons_self kv rest, h4⟩
      · refine .inr ⟨h4, ?_⟩
        intro kv2 hkv2
        rcases List.mem_cons.mp hkv2 with rfl | hkv3
        · exact h5
        · exact h3 kv2 hkv3

theorem mem_applyRepl (s : List Char) (c : Char) (h : c ∈ applyRepl s) :
    (∃ kv ∈ replacementList, c ∈ kv.2) ∨
      (c ∈ s ∧ ∀ kv ∈ replacementList, c ≠ kv.1) :=
  mem_applyReplAux replacementList s c h

theorem applyReplAux_id (rl : List (Char × List Char)) (s : List Char)
    (h : ∀ kv ∈ rl, kv.1 ∉ s) :
    rl.foldl (fun acc kv => replaceChar kv.1 kv.2 acc) s = s := by
  induction rl with
  | nil => rfl
  | cons kv rest ih =>
    rw [List.foldl_cons,
      replaceChar_id kv.1 kv.2 s (h kv (List.mem_cons_self kv rest))]
    exact ih (fun kv2 hkv2 => h kv2 (List.mem_cons_of_mem kv hkv2))

theorem applyRepl_id (s : List Char)
    (h : ∀ kv ∈ replacementList, kv.1 ∉ s) : applyRepl s = s :=
  applyReplAux_id replacementList s h

theorem flatMap_eq_self (f : Char → List Char) (l : List Char)
    (h : ∀ c ∈ l, f c = [c]) : l.flatMap f = l := by
  induction l with
  | nil => rfl
  | cons c rest ih =>
    rw [List.flatMap_cons, h c (List.mem_cons_self c rest),
      ih (fun d hd => h d (List.mem_cons_of_mem c hd))]
    rfl

theorem map_eq_self (f : Char → Char) (l : List Char)
    (h : ∀ c ∈ l, f c = c) : l.map f = l := by
  induction l with
  | nil => rfl
  | cons c rest ih =>
    rw [List.map_cons, h c (List.mem_cons_self c rest),
      ih (fun d hd => h d (List.mem_cons_of_mem c hd))]

theorem char_le_toNat (a b : Char) (h : a ≤ b) : a.toNat ≤ b.toNat := by
  rw [Char.le_def] at h; exact h

theorem char_toNat_le (a b : Char) (h : a.toNat ≤ b.toNat) : a ≤ b := by
  rw [Char.le_def]; exact h

theorem lookup_mem (tbl : List (Char × List Char)) (k : Char)
    (v : List Char) (h : tbl.lookup k = some v) : (k, v) ∈ tbl := by
  induction tbl with
  | nil => simp at h
  | cons kv rest ih =>
    rw [List.lookup] at h
    by_cases hk : k == kv.1
    · rw [hk] at h
      dsimp only at h
      have h1 : k = kv.1 := beq_iff_eq.mp hk
      have h2 : v = kv.2 := (Option.some.inj h).symm
      have h3 : (k, v) = kv := by
        rw [h1, h2]
      rw [h3]
      exact List.mem_cons_self kv rest
    · have hk2 : (k == kv.1) = false := by simpa using hk
      rw [hk2] at h
      dsimp only at h
      exact List.mem_cons_of_mem kv (ih h)

theorem lookup_none_of_big (tbl : List (Char × List Char)) (c : Char)
    (hb : ∀ kv ∈ tbl, 128 ≤ kv.1.toNat) (h : c.toNat < 128) :
    tbl.lookup c = none := by
  induction tbl with
  | nil => rfl
  | cons kv rest ih =>
    rw [List.lookup]
    have hk : (c == kv.1) = false := by
      rw [beq_eq_false_iff_ne]
      intro h1
      have h2 := hb kv (List.mem_cons_self kv rest)
      rw [← h1] at h2
      omega
    rw [hk]
    dsimp only
    exact ih (fun kv2 hkv2 => hb kv2 (List.mem_cons_of_mem kv hkv2))

theorem nfkd_keys_big : ∀ kv ∈ nfkdTable, 128 ≤ kv.1.toNat := by decide

theorem pyNFKD_small (c : Char) (h : c.toNat < 128) : pyNFKD c = [c] := by
  unfold pyNFKD
  rw [lookup_none_of_big nfkdTable c nfkd_keys_big h]

theorem pyLower_upper_toNat (c : Char) (h1 : 'A' ≤ c) (h2 : c ≤ 'Z') :
    (pyLower c).toNat = c.toNat + 32 := by
  have hn2 : c.toNat ≤ 90 := char_le_toNat c 'Z' h2
  unfold pyLower
  rw [if_pos ⟨h1, h2⟩]
  unfold Char.ofNat
  rw [dif_pos]
  · rfl
  · constructor
    omega

theorem pyLower_not_upper (c : Char) (h : ¬('A' ≤ c ∧ c ≤ 'Z')) :
    pyLower c = c := by
  unfold pyLower
  rw [if_neg h]

theorem not_upper_of_toNat_big (c : Char) (h : 90 < c.toNat) :
    ¬('A' ≤ c ∧ c ≤ 'Z') := by
  rintro ⟨-, h2⟩
  have := char_le_toNat c 'Z' h2
  have hz : ('Z').toNat = 90 := by decide
  omega

theorem repl_keys_range : ∀ kv ∈ replacementList,
    kv.1.toNat = 38 ∨ kv.1.toNat = 43 ∨ 128 ≤ kv.1.toNat := by decide

theorem nfkd_out_good : ∀ kv ∈ nfkdTable, ∀ d ∈ kv.2,
    pyNFKD d = [d] ∧ pyLower d = d ∧
    (∀ rv ∈ replacementList, d ≠ rv.1) ∧ d ≠ '(' ∧ d ≠ '[' := by decide

theorem repl_out_good : ∀ kv ∈ replacementList, ∀ d ∈ kv.2,
    pyNFKD d = [d] ∧ pyLower d = d ∧
    (∀ rv ∈ replacementList, d ≠ rv.1) ∧ d ≠ '(' ∧ d ≠ '[' := by decide

theorem space_good : goodChar ' ' := by
  refine ⟨by decide, by decide, by decide, by decide, by decide⟩

theorem normChar_good (s : List Char) (h1 : '(' ∉ s) (h2 : '[' ∉ s)
    (c : Char) (hc : c ∈ normalizeText s) : goodChar c := by
  unfold normalizeText at hc
  by_cases hs : s.isEmpty
  · rw [if_pos hs] at hc
    simp at hc
  · rw [if_neg hs] at hc
    have hc2 := mem_stripEnds _ c hc
    rcases mem_collapseWs _ c hc2 with rfl | hc3
    · exact space_good
    · rcases mem_applyRepl _ c hc3 with ⟨kv, hkv, hout⟩ | ⟨hc4, hkeys⟩
      · exact repl_out_good kv hkv c hout
      · have hc5 := mem_applyPatterns _ c hc4
        have hc6 := mem_stripEnds _ c hc5
        rw [List.mem_map] at hc6
        obtain ⟨d, hd, rfl⟩ := hc6
        rw [List.mem_flatMap] at hd
        obtain ⟨e, he, hde⟩ := hd
        rcases hlk : nfkdTable.lookup e with _ | out
        · have hpe : pyNFKD e = [e] := by unfold pyNFKD; rw [hlk]
          rw [hpe] at hde
          have hde2 : d = e := List.mem_singleton.mp hde
          subst hde2
          by_cases hu : 'A' ≤ d ∧ d ≤ 'Z'
          · have htn : (pyLower d).toNat = d.toNat + 32 :=
              pyLower_upper_toNat d hu.1 hu.2
            have hrange : 65 ≤ d.toNat := char_le_toNat 'A' d hu.1
            have hrange2 : d.toNat ≤ 90 := char_le_toNat d 'Z' hu.2
            refine ⟨?_, ?_, hkeys, ?_, ?_⟩
            · exact pyNFKD_small (pyLower d) (by omega)
            · exact pyLower_not_upper (pyLower d)
                (not_upper_of_toNat_big (pyLower d) (by omega))
            · intro hpar
              have := congrArg Char.toNat hpar
              have hp : ('(').toNat = 40 := by decide
              omega
            · intro hpar
              have := congrArg Char.toNat hpar
              have hp : ('[').toNat = 91 := by decide
              omega
          · have hld : pyLower d = d := pyLower_not_upper d hu
            rw [hld]
            refine ⟨?_, hld, ?_, ?_, ?_⟩
            · unfold pyNFKD; rw [hlk]
            · intro kv hkv
              have := hkeys kv hkv
              rw [hld] at this
              exact this
            · intro hpar
              exact h1 (hpar ▸ he)
            · intro hpar
              exact h2 (hpar ▸ he)
        · have hmem : (e, out) ∈ nfkdTable := lookup_mem nfkdTable e out hlk
          have hde2 : d ∈ out := by
            have hpe : pyNFKD e = out := by unfold pyNFKD; rw [hlk]
            rw [hpe] at hde
            exact hde
          obtain ⟨g1, g2, g3, g4, g5⟩ := nfkd_out_good (e, out) hmem d hde2
          rw [g2]
          exact ⟨g1, g2, g3, g4, g5⟩

theorem wsOkP_normalizeText (s : List Char) : wsOkP (normalizeText s) := by
  unfold normalizeText
  by_cases hs : s.isEmpty
  · rw [if_pos hs]
    exact ⟨by simp, by simp⟩
  · rw [if_neg hs]
    exact wsOkP_stripEnds _ (collapseWs_wsOk _)

theorem stripEnds_normalizeText (s : List Char) :
    stripEnds (normalizeText s) = normalizeText s := by
  unfold normalizeText
  by_cases hs : s.isEmpty
  · rw [if_pos hs]; rfl
  · rw [if_neg hs]
    exact stripEnds_idem _

/-- C5 (amended).  `normalize_text` is total — empty input yields the
empty string — and idempotent on every input containing neither `(`
nor `[`: on such strings every output character is fixed by NFKD,
lowercasing and the replacement table, the qualifier patterns cannot
fire, and the whitespace is already collapsed, so a second application
changes nothing.  (Full idempotence fails; see the counterexample.) -/
theorem c5_idempotent_no_delims (s : List Char) (h1 : ('(') ∉ s)
    (h2 : ('[') ∉ s) :
    normalizeText (normalizeText s) = normalizeText s := by
  by_cases ht : (normalizeText s).isEmpty
  · have hempty : normalizeText s = [] := by
      rcases hn : normalizeText s with _ | ⟨c, cs⟩
      · rfl
      · rw [hn] at ht; simp at ht
    rw [hempty]
    rfl
  · have hgood := fun c hc => normChar_good s h1 h2 c hc
    have hws := wsOkP_normalizeText s
    have hse := stripEnds_normalizeText s
    conv_lhs => rw [normalizeText]
    rw [if_neg ht]
    have e1 : (normalizeText s).flatMap pyNFKD = normalizeText s :=
      flatMap_eq_self _ _ (fun c hc => (hgood c hc).1)
    have e2 : (normalizeText s).map pyLower = normalizeText s :=
      map_eq_self _ _ (fun c hc => (hgood c hc).2.1)
    have e4 : applyPatterns (normalizeText s) = normalizeText s :=
      applyPatterns_id _ (fun hp => (hgood _ hp).2.2.2.1 rfl)
        (fun hp => (hgood _ hp).2.2.2.2 rfl)
    have e5 : applyRepl (normalizeText s) = normalizeText s :=
      applyRepl_id _ (fun kv hkv hm => (hgood _ hm).2.2.1 kv hkv rfl)
    have e6 : collapseWs (normalizeText s) = normalizeText s :=
      collapseWs_eq_self_of_wsOk _ hws
    rw [e1, e2, hse, e4, e5, e6, hse]

theorem c5_idempotent_no_delims_witness :
    ('(') ∉ "A & B  1999".data ∧ ('[') ∉ "A & B  1999".data ∧
    normalizeText (normalizeText "A & B  1999".data) =
      normalizeText "A & B  1999".data :=
  ⟨by decide, by decide,
   c5_idempotent_no_delims "A & B  1999".data (by decide) (by decide)⟩
